import Mathlib

/-!
# Verification of the cantina-redis model/collection/view subsystem

A shallow embedding of the model/collection/view layer of the
cantina-redis repository (src/lib/model.js, src/lib/collection.js,
src/lib/view.js, src/lib/destroy-all.js, src/lib/prefix-key.js), together
with proofs and refutations of the specified properties.

Modelling conventions:
* The redis store is a state record holding sets, hashes and (for views)
  a sorted-set, all keyed by strings.  Store commands (SADD, SREM, HMSET,
  DEL, ZRANGE-style reads) are state transformers / readers translated
  from the redis semantics the source relies on.
* Asynchronous callback pipelines are embedded as pure functions from the
  per-step store outcomes (an `Option String` error per fallible step) to
  the sequence of callback invocations / emitted events; the completion
  order of concurrent operations is an explicit list-of-indices
  parameter, so claims of the form "regardless of completion order" are
  universally quantified over it.
* Record property values appear in index keys and hashes through their
  JavaScript string rendering; the embedding therefore keeps record
  properties as strings where only key construction and set membership
  matter, and uses the typed value model `JsVal` where the type codec is
  concerned.
-/

namespace CantinaRedis

/-! ## Key builder (src/lib/prefix-key.js)

`prefixKey(key, name, prefix)` starts from the fixed root `"cantina"`,
appends the prefix, schema name and key when present and truthy (the
empty string is falsy in JavaScript), and joins with `":"`.  When called
with fewer than two arguments the name and prefix default to the bound
model/collection's `schema.name` and `prefix`; the embedding passes those
explicitly. -/

def optPart : Option String → List String
  | none => []
  | some s => if s = "" then [] else [s]

def prefixKey (key name pfx : Option String) : String :=
  String.intercalate ":" (["cantina"] ++ optPart pfx ++ optPart name ++ optPart key)

/-! ## Store state and primitive commands -/

structure Store where
  sets : String → List String
  hashes : String → Option (List (String × String))

def emptyStore : Store where
  sets := fun _ => []
  hashes := fun _ => none

/-- redis SADD: append the member to the set at `key` unless present. -/
def sadd (f : String → List String) (key m : String) : String → List String :=
  fun k => if k = key then (if m ∈ f key then f key else f key ++ [m]) else f k

/-- redis SREM: remove the member from the set at `key`. -/
def srem (f : String → List String) (key m : String) : String → List String :=
  fun k => if k = key then (f key).filter (fun x => x ≠ m) else f k

/-- redis HMSET field semantics: each given field overwrites or extends the
hash stored at the key (other fields of an existing hash survive). -/
def hsetField (h : List (String × String)) (k v : String) : List (String × String) :=
  if (h.lookup k).isSome then h.map (fun p => if p.1 = k then (k, v) else p) else h ++ [(k, v)]

def hmset (h : Option (List (String × String))) (fields : List (String × String)) :
    List (String × String) :=
  fields.foldl (fun acc p => hsetField acc p.1 p.2) (h.getD [])

/-! ## Records (src/lib/model.js)

A `ModelRef` is the part of a RedisModel instance the persistence layer
reads: its id, the schema name and prefix feeding `prefixKey`, the list
of declared indexed property names (`schema.properties[k].index`), and
the property bag in its string rendering. -/

structure ModelRef where
  id : String
  schemaName : Option String
  pfx : Option String
  indexes : List String
  props : List (String × String)

/-- `this.prefixKey(k)` on a model/collection bound to this schema. -/
def modelKey (sn pfx : Option String) (key : Option String) : String :=
  prefixKey key sn pfx

/-- The key of the record's persisted hash: `this.prefixKey(this.id)`. -/
def recKey (r : ModelRef) : String := modelKey r.schemaName r.pfx (some r.id)

/-- The namespace "all ids" set key: `this.prefixKey()`. -/
def nsKey (r : ModelRef) : String := modelKey r.schemaName r.pfx none

/-- The index set key `self.prefixKey(index + ':' + value)`. -/
def idxKey (r : ModelRef) (f v : String) : String :=
  modelKey r.schemaName r.pfx (some (f ++ ":" ++ v))

/-- The index-set SADD loop of the `save:after` handler. -/
def saveIdxFold (r : ModelRef) (l : List String) (s : Store) : Store :=
  l.foldl
    (fun acc f =>
      match r.props.lookup f with
      | some v => { acc with sets := sadd acc.sets (idxKey r f v) r.id }
      | none => acc)
    s

/-- The `save:after` handler (model.js lines 72-80): SADD the id into the
namespace set, then for every declared index whose property is defined,
SADD the id into the `namespace:index:value` set.  Nothing is removed. -/
def saveAfter (r : ModelRef) (s : Store) : Store :=
  saveIdxFold r r.indexes { s with sets := sadd s.sets (nsKey r) r.id }

/-- The index-set SREM loop of the `destroy:after` handler. -/
def destroyIdxFold (r : ModelRef) (l : List String) (s : Store) : Store :=
  l.foldl
    (fun acc f =>
      match r.props.lookup f with
      | some v => { acc with sets := srem acc.sets (idxKey r f v) r.id }
      | none => acc)
    s

/-- The `destroy:after` handler (model.js lines 81-88): SREM the id from
the namespace set and from the index set of every currently defined
indexed property value. -/
def destroyAfter (r : ModelRef) (s : Store) : Store :=
  destroyIdxFold r r.indexes { s with sets := srem s.sets (nsKey r) r.id }

/-- The success path of `RedisModel.prototype.save`: the MULTI unit HMSETs
the property bag at the record's key and HGETALLs it back; the read-back
(which, through HMSET merge semantics, may contain surviving fields of an
older hash) replaces `this.properties`, and the `save:after` handler then
runs on those read-back properties.  Returns the new store state and the
record as mutated by the read-back. -/
def saveOk (r : ModelRef) (s : Store) : Store × ModelRef :=
  let merged := hmset (s.hashes (recKey r)) r.props
  let s1 : Store := { s with hashes := fun k => if k = recKey r then some merged else s.hashes k }
  let r1 : ModelRef := { r with props := merged }
  (saveAfter r1 s1, r1)

/-! ## save's callback discipline (model.js lines 122-156)

`save` validates, then queues HMSET and HGETALL in a MULTI and execs it.
Each step's callback and the exec callback may report an error; the
`cb_ran` flag guards the two per-step error branches and the exec error
branch, but the exec success branch invokes the callback unguarded.
`saveCbLog` is the exact sequence of callback invocations produced by one
`save(cb)` call, as a function of the validation outcome and the three
store outcomes. -/

inductive SaveCbEvent where
  | validationErrs : SaveCbEvent
  | errCb : String → SaveCbEvent
  | okCb : SaveCbEvent
deriving DecidableEq, Repr

def saveCbLog (valid : Bool) (hmsetErr hgetallErr execErr : Option String) :
    List SaveCbEvent :=
  if valid = false then [SaveCbEvent.validationErrs]
  else
    let step1 : List SaveCbEvent × Bool :=
      match hmsetErr with
      | some e => ([SaveCbEvent.errCb e], true)
      | none => ([], false)
    let step2 : List SaveCbEvent × Bool :=
      match hgetallErr with
      | some e => (step1.1 ++ (if step1.2 then [] else [SaveCbEvent.errCb e]), true)
      | none => step1
    match execErr with
    | some e => step2.1 ++ (if step2.2 then [] else [SaveCbEvent.errCb e])
    | none => step2.1 ++ [SaveCbEvent.okCb]

/-! ## destroy (model.js lines 192-203) -/

inductive DestroyCb where
  | errCb : String → DestroyCb
  | okCb : DestroyCb
deriving DecidableEq, Repr

/-- `RedisModel.prototype.destroy`: emit `destroy:before`, DEL the
record's key; on a DEL error invoke the callback with the error and stop
(no `destroy:after`, no store change); on success emit `destroy:after`
(which retracts set memberships) and invoke the callback with no error.
Returns the resulting store, the emitted event names, and the callback
invocation. -/
def destroyRun (r : ModelRef) (s : Store) (delErr : Option String) :
    Store × List String × DestroyCb :=
  match delErr with
  | some e => (s, ["destroy:before"], DestroyCb.errCb e)
  | none =>
    let s1 : Store := { s with hashes := fun k => if k = recKey r then none else s.hashes k }
    (destroyAfter r s1, ["destroy:before", "destroy:after"], DestroyCb.okCb)

/-! ## Collections (src/lib/collection.js) -/

structure CollRef where
  schemaName : Option String
  pfx : Option String

def collKey (c : CollRef) (key : Option String) : String :=
  prefixKey key c.schemaName c.pfx

/-- Query options of `find` (sort/desc/alpha/limit/skip).  JavaScript
truthiness of `limit` and `skip` is modelled by `0` standing for an
absent/falsy value, exactly as `if (options.limit)` treats it. -/
structure FindOptions where
  sort : Option String := none
  desc : Bool := false
  alpha : Bool := false
  limit : Nat := 0
  skip : Nat := 0
deriving DecidableEq, Repr

/-- The single SORT command `find` issues: the source key, the BY
argument, the optional LIMIT window, and the DESC/ALPHA flags. -/
structure SortCall where
  key : String
  byArg : String
  limitArg : Option (Nat × Nat)
  descFlag : Bool
  alphaFlag : Bool
deriving DecidableEq, Repr

def mkSortCall (c : CollRef) (key : String) (o : FindOptions) : SortCall where
  key := key
  byArg := match o.sort with
    | none => "NOSORT"
    | some f => collKey c (some ("*->" ++ f))
  limitArg := if o.limit ≠ 0 then some (o.skip, o.limit) else none
  descFlag := o.sort.isSome && o.desc
  alphaFlag := o.sort.isSome && o.alpha

/-- `RedisCollection.prototype.find`, up to the store round trip
(collection.js lines 208-263): an empty query targets the namespace set,
a single-pair query targets the `namespace:field:value` index set, and
any query with two or more pairs throws synchronously before any client
command is issued.  `Except.ok` carries the one issued SORT call;
`Except.error` carries the thrown message and no store operation. -/
def findSort (c : CollRef) (query : List (String × String)) (o : FindOptions) :
    Except String SortCall :=
  match query with
  | [] => Except.ok (mkSortCall c (collKey c none) o)
  | [(k, v)] => Except.ok (mkSortCall c (collKey c (some (k ++ ":" ++ v))) o)
  | _ => Except.error "Multiple conditions in query not supported yet"

/-- redis SORT evaluation: `NOSORT` keeps set order; otherwise a stable
sort by the external hash field named in the BY pattern (numeric unless
ALPHA, reversed by DESC); the LIMIT window applies after ordering. -/
def externalField (s : Store) (c : CollRef) (f : String) (id : String) : String :=
  ((s.hashes (collKey c (some id))).getD []).lookup f |>.getD ""

def sortLe (alpha : Bool) (a b : String) : Bool :=
  if alpha then a ≤ b else (a.toInt?.getD 0) ≤ (b.toInt?.getD 0)

def runSortIds (s : Store) (c : CollRef) (call : SortCall) : List String :=
  let base := s.sets call.key
  let ordered :=
    if call.byArg = "NOSORT" then base
    else
      let keyOf := fun id =>
        ((s.hashes (collKey c (some id))).getD []).lookup (fieldOfByArg call.byArg) |>.getD ""
      let sorted := base.mergeSort (fun a b => sortLe call.alphaFlag (keyOf a) (keyOf b))
      if call.descFlag then sorted.reverse else sorted
  match call.limitArg with
  | none => ordered
  | some (sk, li) => (ordered.drop sk).take li
where
  /-- strip the `"*->"` hash-pattern marker back off the BY argument. -/
  fieldOfByArg (b : String) : String := (b.splitOn "*->").getLast!

/-! ## async.parallel (cantina-utils bundles the classic async library)

`async.parallel(tasks, cb)` launches every task; a completing task writes
its result into the results array at its own index; the first error in
completion order invokes the final callback immediately and replaces it
with a no-op; when every task has succeeded the callback receives the
results array, which is therefore in task order regardless of completion
order.  The completion order is the explicit `order` parameter (a
permutation of the task indices). -/

def runParallelGo {α : Type} (tasks : List (Except String α)) :
    List Nat → (Nat → Option α) → Except String (List α)
  | [], acc => Except.ok ((List.range tasks.length).filterMap acc)
  | i :: rest, acc =>
    match tasks[i]? with
    | none => runParallelGo tasks rest acc
    | some (Except.error e) => Except.error e
    | some (Except.ok a) => runParallelGo tasks rest (fun j => if j = i then some a else acc j)

def runParallel {α : Type} (tasks : List (Except String α)) (order : List Nat) :
    Except String (List α) :=
  runParallelGo tasks order (fun _ => none)

/-! ## get / getall / find / findOne over the store

`Model#load` is supplied by the external cantina-model package; only its
callers live in this repository. -/

/-- The (err, model) callback payload of a fetch: a loaded record is its
id together with the hash read back from the store. -/
abbrev RecOut := String × List (String × String)

/-- Modelled from the spec: `Model#load` (cantina-model, not part of
src/) "reads the hash at the record's key; if absent, yields (null,
null) (not an error)"; a store error is passed to the callback as its
first argument.  `errOf` is the store-failure oracle for the HGETALL. -/
def loadModel (s : Store) (errOf : String → Option String) (c : CollRef) (id : String) :
    Except String (Option RecOut) :=
  match errOf id with
  | some e => Except.error e
  | none =>
    match s.hashes (collKey c (some id)) with
    | none => Except.ok none
    | some h => Except.ok (some (id, h))

/-- `RedisCollection.prototype.get` (collection.js lines 119-132): load
the record; pass a load error through; translate a null load result to
`cb(null, null)`; otherwise `cb(null, model)`. -/
def collGet (s : Store) (errOf : String → Option String) (c : CollRef) (id : String) :
    Except String (Option RecOut) :=
  match loadModel s errOf c id with
  | Except.error e => Except.error e
  | Except.ok none => Except.ok none
  | Except.ok (some m) => Except.ok (some m)

/-- `RedisCollection.prototype.getall` (collection.js lines 336-343): one
`get` task per id, in id-list order, run through `async.parallel` with
completion order `order`. -/
def getallRun (s : Store) (errOf : String → Option String) (c : CollRef)
    (ids : List String) (order : List Nat) : Except String (List (Option RecOut)) :=
  runParallel (ids.map (fun id => collGet s errOf c id)) order

/-- The callback-visible outcome of `find`/`findOne`: a synchronously
thrown configuration error (the callback never runs), a callback error,
or a callback success payload. -/
inductive FindOut (α : Type) where
  | thrown : String → FindOut α
  | cbErr : String → FindOut α
  | cbOk : α → FindOut α
deriving Repr

/-- `find` end to end: build and issue the SORT call (or throw), then
`getall` the resulting ids. -/
def findRun (s : Store) (errOf : String → Option String) (c : CollRef)
    (query : List (String × String)) (o : FindOptions) (order : List Nat) :
    FindOut (List (Option RecOut)) :=
  match findSort c query o with
  | Except.error e => FindOut.thrown e
  | Except.ok call =>
    match getallRun s errOf c (runSortIds s c call) order with
    | Except.error e => FindOut.cbErr e
    | Except.ok results => FindOut.cbOk results

/-- `RedisCollection.prototype.findOne` (collection.js lines 301-315):
overwrite `options.limit` with 1 (a mutation of the caller's options
object, performed before `find` runs), delegate to `find`, and hand the
callback `results.pop()` — the last element of the result array, or
JavaScript `undefined` (here `Option.none`) when the array is empty.
Returns the caller-visible options object after the call together with
the callback outcome. -/
def findOneRun (s : Store) (errOf : String → Option String) (c : CollRef)
    (query : List (String × String)) (o : FindOptions) (order : List Nat) :
    FindOptions × FindOut (Option (Option RecOut)) :=
  let o1 : FindOptions := { o with limit := 1 }
  (o1,
    match findRun s errOf c query o1 order with
    | FindOut.thrown e => FindOut.thrown e
    | FindOut.cbErr e => FindOut.cbErr e
    | FindOut.cbOk results => FindOut.cbOk results.getLast?)

/-! ## Views (src/lib/view.js): list and its cache (lines 193-225)

For the cache/store agreement claim only `list` and the two read paths
matter.  The view state carries the default direction, the cache switch,
the in-memory cache (a list of member ids mirroring the head of the
ordering in the default direction; `none` before priming), and the
persisted sorted set as its members in ascending score order.  Hydration
of a member into a live record is order-preserving and identical on both
paths, so the compared payload is the member sequence itself. -/

inductive VDir where
  | asc : VDir
  | desc : VDir
deriving DecidableEq, Repr

structure ViewState where
  dir : VDir
  cacheOn : Bool
  cacheArr : Option (List String)
  zasc : List String

/-- redis ZRANGE/ZREVRANGE with positional, INCLUSIVE start and stop:
`list` issues `(key, skip, skip + limit)`, so the store path yields up to
`limit + 1` members. -/
def zrangeSlice (l : List String) (start stop : Nat) : List String :=
  (l.drop start).take (stop + 1 - start)

/-- The store-backed read `list` performs when it does not serve from the
cache: ZRANGE ascending for ASC, ZREVRANGE for DESC, over the window
`(skip, skip + limit)`. -/
def listFromStore (v : ViewState) (limit skip : Nat) (d : VDir) : List String :=
  zrangeSlice (if d = VDir.asc then v.zasc else v.zasc.reverse) skip (skip + limit)

/-- `RedisView.prototype.list` (view.js lines 193-225): serve
`_cache.slice(skip, skip + limit)` when caching is on, the cache is
primed, the direction matches the default, and `!skip || limit + skip <=
_cache.length`; otherwise fall back to the store read. -/
def listView (v : ViewState) (limit skip : Nat) (d : VDir) : List String :=
  if v.cacheOn = true ∧ v.cacheArr.isSome = true ∧ d = v.dir ∧
      (skip = 0 ∨ limit + skip ≤ (v.cacheArr.getD []).length) then
    ((v.cacheArr.getD []).drop skip).take limit
  else
    listFromStore v limit skip d

/-! ## destroyAll (src/lib/destroy-all.js)

`module.exports = function(done)`: the completion callback is the FIRST
argument; the remaining arguments are entities or arrays of entities
(arrays detected by a truthy `length`).  Every entity with a `destroy`
method contributes one task; the tasks run through `async.parallel`.
`destroyAllTrace` is the observable event sequence: one `settled i` per
completing destroy (in completion order) and the single `done`
invocation placed where async.parallel makes it. -/

inductive Entity where
  | destroyable : Except String Unit → Entity
  | plain : Entity
deriving Repr

inductive DAArg where
  | one : Entity → DAArg
  | many : List Entity → DAArg
deriving Repr

def entityTasks : List Entity → List (Except String Unit)
  | [] => []
  | Entity.destroyable o :: rest => o :: entityTasks rest
  | Entity.plain :: rest => entityTasks rest

/-- The task list destroyAll builds: flatten arrays, keep only entities
with a `destroy` method, in argument order. -/
def extractTasks : List DAArg → List (Except String Unit)
  | [] => []
  | DAArg.one (Entity.destroyable o) :: rest => o :: extractTasks rest
  | DAArg.one Entity.plain :: rest => extractTasks rest
  | DAArg.many es :: rest => entityTasks es ++ extractTasks rest

inductive DAEvent where
  | settled : Nat → DAEvent
  | doneErr : String → DAEvent
  | doneOk : DAEvent
deriving DecidableEq, Repr

/-- async.parallel's event discipline over the destroy tasks: each
completion (in `order`) settles; the first error invokes `done`
immediately and silences it; a success bumps the completed counter and
invokes `done` when it reaches the task count with no prior error. -/
def daGo (tasks : List (Except String Unit)) :
    List Nat → Nat → Bool → List DAEvent
  | [], _, _ => []
  | i :: rest, completed, errored =>
    match tasks[i]? with
    | none => daGo tasks rest completed errored
    | some (Except.error e) =>
      DAEvent.settled i ::
        (if errored then daGo tasks rest completed true
         else DAEvent.doneErr e :: daGo tasks rest completed true)
    | some (Except.ok _) =>
      DAEvent.settled i ::
        ((if completed + 1 = tasks.length ∧ errored = false then [DAEvent.doneOk] else []) ++
          daGo tasks rest (completed + 1) errored)

def destroyAllTrace (args : List DAArg) (order : List Nat) : List DAEvent :=
  let tasks := extractTasks args
  if tasks.length = 0 then [DAEvent.doneOk]
  else daGo tasks order 0 false

/-- `true` when some `settled` event follows a `done` invocation in the
trace — i.e. the completion callback ran before all destroys settled. -/
def settleAfterDone : List DAEvent → Bool
  | [] => false
  | DAEvent.settled _ :: rest => settleAfterDone rest
  | DAEvent.doneErr _ :: rest => rest.any (fun ev => match ev with | DAEvent.settled _ => true | _ => false)
  | DAEvent.doneOk :: rest => rest.any (fun ev => match ev with | DAEvent.settled _ => true | _ => false)

def countDone : List DAEvent → Nat
  | [] => 0
  | DAEvent.settled _ :: rest => countDone rest
  | DAEvent.doneErr _ :: rest => countDone rest + 1
  | DAEvent.doneOk :: rest => countDone rest + 1

/-! ## Type codec (hydrate/dehydrate)

Modelled from the spec: the codec of model.js `_dehydrate`/`_hydrate` is
built on the external `hydration` npm package and `JSON.stringify`/
`JSON.parse`, none of which are part of src/.  Per the spec, `dehydrate`
walks a property bag, records every field's runtime kind in a parallel
types map, and converts non-string kinds to string form — objects and
arrays to a structural serialization, dates to a canonical sortable text
— while `hydrate` inverts all of that using the recorded kinds.  The
embedding keeps the supported kinds of the claim (string, number,
boolean, date, nested object/array, pattern), models JavaScript numbers
and date timestamps as integers, and realizes the unspecified textual
encodings by an executable length-prefixed structural code (`encVal`)
with a recursive-descent reader (`parseVal`). -/

mutual

inductive JsVal where
  | str : String → JsVal
  | num : Int → JsVal
  | bool : Bool → JsVal
  | date : Int → JsVal
  | pattern : String → JsVal
  | obj : JsProps → JsVal
  | arr : JsList → JsVal

inductive JsProps where
  | nil : JsProps
  | cons : String → JsVal → JsProps → JsProps

inductive JsList where
  | nil : JsList
  | cons : JsVal → JsList → JsList

end

/-- Unary length prefix terminated by `':'`, so payloads need no
escaping. -/
def encNat (n : Nat) : List Char :=
  List.replicate n '1' ++ [':']

def encStr (s : String) : List Char :=
  encNat s.length ++ s.data

def encInt (i : Int) : List Char :=
  if 0 ≤ i then '+' :: encNat i.toNat else '-' :: encNat (-i).toNat

mutual

def encVal : JsVal → List Char
  | JsVal.str s => 's' :: encStr s
  | JsVal.num i => 'n' :: encInt i
  | JsVal.bool b => 'b' :: [if b then 't' else 'f']
  | JsVal.date d => 'd' :: encInt d
  | JsVal.pattern p => 'p' :: encStr p
  | JsVal.obj ps => 'o' :: encProps ps
  | JsVal.arr l => 'a' :: encList l

def encProps : JsProps → List Char
  | JsProps.nil => [';']
  | JsProps.cons k v rest => ',' :: (encStr k ++ encVal v ++ encProps rest)

def encList : JsList → List Char
  | JsList.nil => [';']
  | JsList.cons v rest => ',' :: (encVal v ++ encList rest)

end

def parseNat : List Char → Option (Nat × List Char)
  | [] => none
  | c :: rest =>
    if c = ':' then some (0, rest)
    else if c = '1' then (parseNat rest).map (fun p => (p.1 + 1, p.2))
    else none

def parseStr (input : List Char) : Option (String × List Char) :=
  match parseNat input with
  | none => none
  | some (n, rest) =>
    if n ≤ rest.length then some (String.mk (rest.take n), rest.drop n) else none

def parseInt : List Char → Option (Int × List Char)
  | [] => none
  | c :: rest =>
    if c = '+' then (parseNat rest).map (fun p => ((p.1 : Int), p.2))
    else if c = '-' then (parseNat rest).map (fun p => (-(p.1 : Int), p.2))
    else none

def parseBool : List Char → Option (JsVal × List Char)
  | 't' :: r => some (JsVal.bool true, r)
  | 'f' :: r => some (JsVal.bool false, r)
  | _ => none

mutual

def parseVal : Nat → List Char → Option (JsVal × List Char)
  | 0, _ => none
  | _ + 1, [] => none
  | fuel + 1, c :: rest =>
    if c = 's' then (parseStr rest).map (fun p => (JsVal.str p.1, p.2))
    else if c = 'n' then (parseInt rest).map (fun p => (JsVal.num p.1, p.2))
    else if c = 'b' then parseBool rest
    else if c = 'd' then (parseInt rest).map (fun p => (JsVal.date p.1, p.2))
    else if c = 'p' then (parseStr rest).map (fun p => (JsVal.pattern p.1, p.2))
    else if c = 'o' then (parseProps fuel rest).map (fun p => (JsVal.obj p.1, p.2))
    else if c = 'a' then (parseList fuel rest).map (fun p => (JsVal.arr p.1, p.2))
    else none

def parseProps : Nat → List Char → Option (JsProps × List Char)
  | 0, _ => none
  | _ + 1, [] => none
  | fuel + 1, c :: rest =>
    if c = ';' then some (JsProps.nil, rest)
    else if c = ',' then
      match parseStr rest with
      | none => none
      | some (k, r1) =>
        match parseVal fuel r1 with
        | none => none
        | some (v, r2) =>
          (parseProps fuel r2).map (fun p => (JsProps.cons k v p.1, p.2))
    else none

def parseList : Nat → List Char → Option (JsList × List Char)
  | 0, _ => none
  | _ + 1, [] => none
  | fuel + 1, c :: rest =>
    if c = ';' then some (JsList.nil, rest)
    else if c = ',' then
      match parseVal fuel rest with
      | none => none
      | some (v, r1) =>
        (parseList fuel r1).map (fun p => (JsList.cons v p.1, p.2))
    else none

end

mutual

def depthVal : JsVal → Nat
  | JsVal.obj ps => depthProps ps + 1
  | JsVal.arr l => depthList l + 1
  | _ => 1

def depthProps : JsProps → Nat
  | JsProps.nil => 1
  | JsProps.cons _ v rest => max (depthVal v) (depthProps rest) + 1

def depthList : JsList → Nat
  | JsList.nil => 1
  | JsList.cons v rest => max (depthVal v) (depthList rest) + 1

end

/-- The runtime kinds the codec records in the types map. -/
inductive JsKind where
  | str : JsKind
  | num : JsKind
  | bool : JsKind
  | date : JsKind
  | pattern : JsKind
  | obj : JsKind
  | arr : JsKind
deriving DecidableEq, Repr

def kindOf : JsVal → JsKind
  | JsVal.str _ => JsKind.str
  | JsVal.num _ => JsKind.num
  | JsVal.bool _ => JsKind.bool
  | JsVal.date _ => JsKind.date
  | JsVal.pattern _ => JsKind.pattern
  | JsVal.obj _ => JsKind.obj
  | JsVal.arr _ => JsKind.arr

/-- The string stored for one field: strings and pattern sources pass
through; numbers and date timestamps render through the integer code;
booleans render as their JavaScript text; objects and arrays are
structurally serialized. -/
def fieldText : JsVal → String
  | JsVal.str s => s
  | JsVal.num i => String.mk (encInt i)
  | JsVal.bool b => if b then "true" else "false"
  | JsVal.date d => String.mk (encInt d)
  | JsVal.pattern p => p
  | JsVal.obj ps => String.mk (encVal (JsVal.obj ps))
  | JsVal.arr l => String.mk (encVal (JsVal.arr l))

/-- Recover one field from its stored text using its recorded kind. -/
def fieldOfText (k : JsKind) (s : String) : Option JsVal :=
  match k with
  | JsKind.str => some (JsVal.str s)
  | JsKind.num =>
    match parseInt s.data with
    | some (i, []) => some (JsVal.num i)
    | _ => none
  | JsKind.bool =>
    if s = "true" then some (JsVal.bool true)
    else if s = "false" then some (JsVal.bool false)
    else none
  | JsKind.date =>
    match parseInt s.data with
    | some (d, []) => some (JsVal.date d)
    | _ => none
  | JsKind.pattern => some (JsVal.pattern s)
  | JsKind.obj =>
    match parseVal (s.data.length + 1) s.data with
    | some (v, []) => some v
    | _ => none
  | JsKind.arr =>
    match parseVal (s.data.length + 1) s.data with
    | some (v, []) => some v
    | _ => none

/-- Modelled from the spec: `dehydrate(value) -> {data, types}` walks the
property bag and produces the flat string-valued data together with the
parallel types map. -/
def dehydrateProps : JsProps → List (String × String) × List (String × JsKind)
  | JsProps.nil => ([], [])
  | JsProps.cons k v rest =>
    let d := dehydrateProps rest
    ((k, fieldText v) :: d.1, (k, kindOf v) :: d.2)

/-- Modelled from the spec: `hydrate(data, types)` rebuilds the typed bag
field by field from the stored strings and the recorded kinds. -/
def hydrateProps : List (String × String) → List (String × JsKind) → Option JsProps
  | [], [] => some JsProps.nil
  | (k, s) :: data, (k2, kd) :: types =>
    if k = k2 then
      match fieldOfText kd s, hydrateProps data types with
      | some v, some rest => some (JsProps.cons k v rest)
      | _, _ => none
    else none
  | _, _ => none

/-! ## Derived notions used by the theorem statements -/

/-- The collection façade bound to the same schema as a record. -/
def collOf (r : ModelRef) : CollRef where
  schemaName := r.schemaName
  pfx := r.pfx

/-- What a successful `get` hands its callback for an id: `none` for a
missing record, or the record with the hash read from the store. -/
def getOkVal (s : Store) (c : CollRef) (id : String) : Option RecOut :=
  match s.hashes (collKey c (some id)) with
  | none => none
  | some h => some (id, h)

/-- `find(query)` with default options includes `id` among the ids the
issued SORT yields. -/
def findDefaultIncludes (s : Store) (c : CollRef) (query : List (String × String))
    (id : String) : Prop :=
  ∃ call, findSort c query {} = Except.ok call ∧ id ∈ runSortIds s c call

/-! Concrete scenarios used by the counterexample / failing-input
theorems. -/

/-- A record of schema `m` whose indexed field `f` holds `"a"`. -/
def idxRec1 : ModelRef where
  id := "r1"
  schemaName := some "m"
  pfx := none
  indexes := ["f"]
  props := [("f", "a")]

/-- The same record after the caller changed `f` to `"b"`. -/
def idxRec2 : ModelRef :=
  { idxRec1 with props := [("f", "b")] }

/-- Save `idxRec1`, change `f` to `"b"`, save again. -/
def staleIdxState : Store :=
  (saveOk idxRec2 (saveOk idxRec1 emptyStore).1).1

/-- ... and then destroy the record. -/
def staleIdxStateAfterDestroy : Store :=
  (destroyRun idxRec2 staleIdxState none).1

/-- A cached view (default direction ascending) whose cache mirrors all
three members of the persisted ordering — the cache is perfectly
consistent with the store's head. -/
def cachedView3 : ViewState where
  dir := VDir.asc
  cacheOn := true
  cacheArr := some ["m1", "m2", "m3"]
  zasc := ["m1", "m2", "m3"]

/-- A cached view whose cache only holds the first member of three. -/
def shortCachedView : ViewState :=
  { cachedView3 with cacheArr := some ["m1"] }

/-- Two destroyable entities, the first of which fails to destroy. -/
def daArgsEx : List DAArg :=
  [DAArg.one (Entity.destroyable (Except.error "E")),
   DAArg.one (Entity.destroyable (Except.ok ()))]

/-- The collection used by concrete fetch scenarios. -/
def collEx : CollRef where
  schemaName := some "m"
  pfx := none

/-- A store holding one record `x` of schema `m`, listed in the
namespace set. -/
def oneRecStore : Store where
  sets := fun k => if k = "cantina:m" then ["x"] else []
  hashes := fun k => if k = "cantina:m:x" then some [("n", "1")] else none

/-! # Theorems -/

/-! ## C5 — multi-condition query rejection -/

/-- C5: a query with two or more key-value pairs makes `find` throw the
configuration error synchronously, issuing no store operation (the
`Except.error` branch of `findSort` carries no SORT call); an empty
query proceeds against the namespace set and a single-pair query against
that pair's index set. -/
theorem find_rejects_multi_condition (c : CollRef) (o : FindOptions) :
    (∀ q : List (String × String), 2 ≤ q.length →
        findSort c q o = Except.error "Multiple conditions in query not supported yet")
    ∧ findSort c [] o = Except.ok (mkSortCall c (collKey c none) o)
    ∧ (∀ k v : String,
        findSort c [(k, v)] o = Except.ok (mkSortCall c (collKey c (some (k ++ ":" ++ v))) o)) := by
  refine ⟨?_, rfl, fun k v => rfl⟩
  intro q hq
  match q with
  | [] => simp at hq
  | [_] => simp at hq
  | (a, b) :: (a2, b2) :: rest => rfl

/-- Witness for C5 at a concrete two-condition query. -/
theorem find_rejects_multi_condition_witness :
    findSort collEx [("a", "1"), ("b", "2")] {} =
      Except.error "Multiple conditions in query not supported yet" :=
  (find_rejects_multi_condition collEx {}).1 [("a", "1"), ("b", "2")] (by decide)

/-! ## C6 — not-found contract of get -/

/-- C6: for an id with no persisted hash (and no store failure),
`RedisCollection.prototype.get` invokes its callback with `(null, null)`
— a success with a null payload, never an error — while a store error is
passed as the callback's first argument. -/
theorem get_not_found_yields_null (s : Store) (errOf : String → Option String)
    (c : CollRef) (id : String) :
    (errOf id = none → s.hashes (collKey c (some id)) = none →
        collGet s errOf c id = Except.ok none)
    ∧ (∀ e, errOf id = some e → collGet s errOf c id = Except.error e) := by
  constructor
  · intro h1 h2
    simp [collGet, loadModel, h1, h2]
  · intro e he
    simp [collGet, loadModel, he]

/-- Witness for C6: a missing id on an empty store, and a store error. -/
theorem get_not_found_yields_null_witness :
    collGet emptyStore (fun _ => none) collEx "nope" = Except.ok none
    ∧ collGet emptyStore (fun _ => some "down") collEx "x" = Except.error "down" :=
  ⟨(get_not_found_yields_null emptyStore (fun _ => none) collEx "nope").1 rfl rfl,
   (get_not_found_yields_null emptyStore (fun _ => some "down") collEx "x").2 "down" rfl⟩

/-! ## C9 — destroy error atomicity -/

/-- C9: when the DEL issued by `destroy` fails, the store (hence every
index set) is unchanged, `destroy:after` is not emitted, and the callback
receives the deletion error; `destroy:after` and the success callback
occur only on the success branch, after the deletion. -/
theorem destroy_error_atomicity (r : ModelRef) (s : Store) (e : String) :
    destroyRun r s (some e) = (s, ["destroy:before"], DestroyCb.errCb e)
    ∧ (destroyRun r s none).2 = (["destroy:before", "destroy:after"], DestroyCb.okCb) :=
  ⟨rfl, rfl⟩

/-! ## C10 — findOne mutates the caller's options -/

/-- C10: `findOne` overwrites `options.limit` with 1 before delegating —
the caller-visible options object after the call is the original with
`limit := 1`, whatever limit the caller set — and on a successful find
the callback receives `results.pop()`: the last element of the limited
result array, or `undefined` (`none`) when nothing matched. -/
theorem findOne_overwrites_limit (s : Store) (errOf : String → Option String) (c : CollRef)
    (query : List (String × String)) (o : FindOptions) (order : List Nat) :
    (findOneRun s errOf c query o order).1 = { o with limit := 1 }
    ∧ (∀ l, findRun s errOf c query { o with limit := 1 } order = FindOut.cbOk l →
        (findOneRun s errOf c query o order).2 = FindOut.cbOk l.getLast?) := by
  refine ⟨rfl, fun l h => ?_⟩
  simp only [findOneRun, h]

/-- Witness for C10: the caller set `limit := 5`; after the call the
options hold `limit = 1`, and the callback got the single fetched
record. -/
theorem findOne_overwrites_limit_witness :
    (findOneRun oneRecStore (fun _ => none) collEx [] { limit := 5 } [0]).1 =
      ({ limit := 1 } : FindOptions)
    ∧ (findOneRun oneRecStore (fun _ => none) collEx [] { limit := 5 } [0]).2 =
      FindOut.cbOk (some (some ("x", [("n", "1")]))) := by
  refine ⟨(findOne_overwrites_limit oneRecStore (fun _ => none) collEx [] { limit := 5 } [0]).1, ?_⟩
  have h2 := (findOne_overwrites_limit oneRecStore (fun _ => none) collEx [] { limit := 5 } [0]).2
      [some ("x", [("n", "1")])] rfl
  simpa using h2

/-! ## C3 — the save callback can be invoked twice (failing input) -/

/-- C3 failing input: a valid record whose HMSET step reports a store
error while the MULTI exec completes without an aggregated error (redis
runs the remaining queued commands and EXEC itself succeeds).  The
`cb_ran` guard stops the other error branches, but the exec success
branch calls `cb(null, self)` unguarded: the callback runs twice, against
the at-most-once claim. -/
theorem save_callback_invoked_twice :
    saveCbLog true (some "boom") none none = [SaveCbEvent.errCb "boom", SaveCbEvent.okCb]
    ∧ (saveCbLog true (some "boom") none none).length ≠ 1 :=
  ⟨rfl, by decide⟩

/-! ## C2 — cache-served and store-served list windows disagree (failing input) -/

/-- C2 failing input: an ascending cached view over three members whose
cache mirrors the whole persisted ordering.  `list(2, 0)` in the default
direction is served from the cache as exactly 2 members, but the
store-backed read of the same window issues `ZRANGE(key, 0, 2)` with
redis's inclusive bounds and returns 3; moreover with `skip = 0` the
`!skip ||` guard serves from a cache that covers only 1 of 3 members,
returning 1 member where the store returns 3. -/
theorem view_list_cache_store_disagree :
    listView cachedView3 2 0 VDir.asc = ["m1", "m2"]
    ∧ listFromStore cachedView3 2 0 VDir.asc = ["m1", "m2", "m3"]
    ∧ listView shortCachedView 2 0 VDir.asc = ["m1"]
    ∧ listFromStore shortCachedView 2 0 VDir.asc = ["m1", "m2", "m3"] := by
  decide

/-! ## C1 — counterexample: re-saving after an index-field change leaves
the old index entry -/

/-- C1 counterexample: record `r1` (schema `m`, indexed field `f`) is
saved with `f = "a"`, then re-saved with `f = "b"`, then destroyed.  The
claim says the old index set `cantina:m:f:a` no longer contains the id
after the re-save and that no index set contains it after the destroy;
in fact it is still a member in both states, because `save:after` only
adds entries and `destroy:after` removes only the sets keyed by the
record's current values. -/
theorem stale_index_entry_survives :
    "r1" ∈ staleIdxState.sets (idxKey idxRec1 "f" "a")
    ∧ "r1" ∈ staleIdxStateAfterDestroy.sets (idxKey idxRec1 "f" "a") := by
  decide

/-! ## Set-membership lemmas for the save/destroy handlers -/

theorem mem_sadd_self (f : String → List String) (key x : String) :
    x ∈ sadd f key x key := by
  unfold sadd
  rw [if_pos rfl]
  split
  · assumption
  · exact List.mem_append_right _ (List.mem_singleton.2 rfl)

theorem mem_sadd_of_mem {f : String → List String} {k x : String} (key m : String)
    (h : x ∈ f k) : x ∈ sadd f key m k := by
  unfold sadd
  split
  · next heq =>
    subst heq
    split
    · exact h
    · exact List.mem_append_left _ h
  · exact h

theorem not_mem_srem_self (f : String → List String) (key x : String) :
    x ∉ srem f key x key := by
  unfold srem
  rw [if_pos rfl]
  intro hx
  simpa using List.of_mem_filter hx

theorem not_mem_srem_of_not_mem {f : String → List String} {k x : String} (key m : String)
    (h : x ∉ f k) : x ∉ srem f key m k := by
  unfold srem
  split
  · next heq =>
    subst heq
    intro hx
    exact h (List.mem_of_mem_filter hx)
  · exact h

theorem saveIdxFold_cons (r : ModelRef) (f : String) (rest : List String) (s : Store) :
    saveIdxFold r (f :: rest) s =
      saveIdxFold r rest
        (match r.props.lookup f with
         | some v => { s with sets := sadd s.sets (idxKey r f v) r.id }
         | none => s) := rfl

theorem destroyIdxFold_cons (r : ModelRef) (f : String) (rest : List String) (s : Store) :
    destroyIdxFold r (f :: rest) s =
      destroyIdxFold r rest
        (match r.props.lookup f with
         | some v => { s with sets := srem s.sets (idxKey r f v) r.id }
         | none => s) := rfl

/-- The save-time index loop never removes a membership. -/
theorem saveIdxFold_mem_mono (r : ModelRef) (l : List String) (s : Store)
    {k x : String} (h : x ∈ s.sets k) : x ∈ (saveIdxFold r l s).sets k := by
  induction l generalizing s with
  | nil => exact h
  | cons f rest ih =>
    rw [saveIdxFold_cons]
    cases hl : r.props.lookup f with
    | none => exact ih _ h
    | some v => exact ih _ (mem_sadd_of_mem _ _ h)

/-- The save-time index loop adds the id for every indexed, defined
property. -/
theorem saveIdxFold_mem_added (r : ModelRef) (l : List String) (s : Store)
    {f v : String} (hf : f ∈ l) (hv : r.props.lookup f = some v) :
    r.id ∈ (saveIdxFold r l s).sets (idxKey r f v) := by
  induction l generalizing s with
  | nil => cases hf
  | cons g rest ih =>
    rw [saveIdxFold_cons]
    rcases List.mem_cons.1 hf with hgf | htail
    · subst hgf
      rw [hv]
      exact saveIdxFold_mem_mono _ _ _ (mem_sadd_self _ _ _)
    · exact ih _ htail

/-- The destroy-time index loop never adds a membership. -/
theorem destroyIdxFold_not_mem (r : ModelRef) (l : List String) (s : Store)
    {k x : String} (h : x ∉ s.sets k) : x ∉ (destroyIdxFold r l s).sets k := by
  induction l generalizing s with
  | nil => exact h
  | cons f rest ih =>
    rw [destroyIdxFold_cons]
    cases hl : r.props.lookup f with
    | none => exact ih _ h
    | some v => exact ih _ (not_mem_srem_of_not_mem _ _ h)

/-- The destroy-time index loop removes the id for every indexed,
defined property. -/
theorem destroyIdxFold_removes (r : ModelRef) (l : List String) (s : Store)
    {f v : String} (hf : f ∈ l) (hv : r.props.lookup f = some v) :
    r.id ∉ (destroyIdxFold r l s).sets (idxKey r f v) := by
  induction l generalizing s with
  | nil => cases hf
  | cons g rest ih =>
    rw [destroyIdxFold_cons]
    rcases List.mem_cons.1 hf with hgf | htail
    · subst hgf
      rw [hv]
      exact destroyIdxFold_not_mem _ _ _ (not_mem_srem_self _ _ _)
    · exact ih _ htail

theorem runSortIds_default (s : Store) (c : CollRef) (key : String) :
    runSortIds s c (mkSortCall c key {}) = s.sets key := rfl

/-! ## C1 — amended index-consistency theorem -/

/-- C1 amended: after a successful save, `find({f: v})` — for `v` the
record's post-save value of the declared index `f` — includes the
record's id; a save never removes any set membership (so re-saving after
changing `f` leaves the id in the old index set, as
`stale_index_entry_survives` exhibits); a successful destroy removes the
id from the namespace set and from every index set keyed by the record's
current property values (only stale sets from earlier values can retain
it). -/
theorem index_consistency_amended (r : ModelRef) (s : Store) :
    (∀ f v, f ∈ r.indexes → ((saveOk r s).2).props.lookup f = some v →
        findDefaultIncludes (saveOk r s).1 (collOf r) [(f, v)] r.id)
    ∧ (∀ k x, x ∈ s.sets k → x ∈ ((saveOk r s).1).sets k)
    ∧ (∀ f v, f ∈ r.indexes → r.props.lookup f = some v →
        r.id ∉ ((destroyRun r s none).1).sets (idxKey r f v))
    ∧ r.id ∉ ((destroyRun r s none).1).sets (nsKey r) := by
  refine ⟨?_, ?_, ?_, ?_⟩
  · intro f v hf hv
    refine ⟨mkSortCall (collOf r) (collKey (collOf r) (some (f ++ ":" ++ v))) {}, rfl, ?_⟩
    rw [runSortIds_default]
    exact saveIdxFold_mem_added _ _ _ hf hv
  · intro k x h
    exact saveIdxFold_mem_mono _ _ _ (mem_sadd_of_mem _ _ h)
  · intro f v hf hv
    exact destroyIdxFold_removes _ _ _ hf hv
  · exact destroyIdxFold_not_mem _ _ _ (not_mem_srem_self _ _ _)

/-- Witness for C1 amended at the concrete indexed record. -/
theorem index_consistency_amended_witness :
    findDefaultIncludes (saveOk idxRec1 emptyStore).1 (collOf idxRec1) [("f", "a")] "r1"
    ∧ "r1" ∉ ((destroyRun idxRec1 (saveOk idxRec1 emptyStore).1 none).1).sets
        (idxKey idxRec1 "f" "a") :=
  ⟨(index_consistency_amended idxRec1 emptyStore).1 "f" "a" (by decide) (by decide),
   (index_consistency_amended idxRec1 (saveOk idxRec1 emptyStore).1).2.2.1 "f" "a"
     (by decide) (by decide)⟩

/-! ## async.parallel lemmas -/

theorem filterMap_range_getElem {α : Type} (l : List α) :
    (List.range l.length).filterMap (fun j => l[j]?) = l := by
  induction l with
  | nil => rfl
  | cons a t ih =>
    rw [List.length_cons, List.range_succ_eq_map, List.filterMap_cons, List.filterMap_map]
    simp only [List.getElem?_cons_zero, Function.comp_def, List.getElem?_cons_succ]
    rw [ih]

theorem collGet_ok (s : Store) (errOf : String → Option String) (c : CollRef) (id : String)
    (h : errOf id = none) : collGet s errOf c id = Except.ok (getOkVal s c id) := by
  simp only [collGet, loadModel, h, getOkVal]
  cases s.hashes (collKey c (some id)) <;> rfl

theorem collGet_err (s : Store) (errOf : String → Option String) (c : CollRef) (id e : String)
    (h : errOf id = some e) : collGet s errOf c id = Except.error e := by
  simp [collGet, loadModel, h]

theorem runParallelGo_cons {α : Type} (tasks : List (Except String α)) (i : Nat)
    (rest : List Nat) (acc : Nat → Option α) :
    runParallelGo tasks (i :: rest) acc =
      match tasks[i]? with
      | none => runParallelGo tasks rest acc
      | some (Except.error e) => Except.error e
      | some (Except.ok a) =>
        runParallelGo tasks rest (fun j => if j = i then some a else acc j) := rfl

/-- When every task succeeds, async.parallel's index-addressed results
array makes the output the task values in task order, whatever the
completion order — provided every index below the task count completes. -/
theorem runParallelGo_all_ok {α : Type} (vals : List α) (order : List Nat)
    (acc : Nat → Option α)
    (hacc : ∀ j, j < vals.length → j ∉ order → acc j = vals[j]?) :
    runParallelGo (vals.map Except.ok) order acc = Except.ok vals := by
  induction order generalizing acc with
  | nil =>
    show Except.ok ((List.range (vals.map Except.ok).length).filterMap acc) = _
    rw [List.length_map]
    have hc : (List.range vals.length).filterMap acc =
        (List.range vals.length).filterMap (fun j => vals[j]?) := by
      apply List.filterMap_congr
      intro j hj
      exact hacc j (List.mem_range.1 hj) (List.not_mem_nil j)
    rw [hc, filterMap_range_getElem]
  | cons i rest ih =>
    rw [runParallelGo_cons]
    cases hi : (vals.map Except.ok)[i]? with
    | none =>
      have hlen : vals.length ≤ i := by
        by_contra hlt
        rw [List.getElem?_eq_getElem (by simpa using Nat.lt_of_not_le hlt)] at hi
        cases hi
      apply ih
      intro j hj hjr
      have hji : j ≠ i := fun hji => absurd (hji ▸ hj) (Nat.not_lt_of_le hlen)
      exact hacc j hj (by simp [hjr, hji])
    | some t =>
      have hvi : ∃ a, vals[i]? = some a ∧ t = Except.ok a := by
        rw [List.getElem?_map] at hi
        cases hv : vals[i]? with
        | none => rw [hv] at hi; cases hi
        | some a => rw [hv] at hi; exact ⟨a, rfl, (Option.some.inj hi).symm⟩
      obtain ⟨a, hva, ht⟩ := hvi
      subst ht
      apply ih
      intro j hj hjr
      by_cases hji : j = i
      · subst hji; simp [hva]
      · rw [if_neg hji]
        exact hacc j hj (by simp [hjr, hji])

/-- async.parallel fails with the unique failing task's error, whatever
the completion order covering that task. -/
theorem runParallelGo_unique_error {α : Type} (tasks : List (Except String α))
    (i0 : Nat) (e : String) (hi : tasks[i0]? = some (Except.error e))
    (hothers : ∀ j, j ≠ i0 → ∀ e', tasks[j]? ≠ some (Except.error e'))
    (order : List Nat) (acc : Nat → Option α) (hmem : i0 ∈ order) :
    runParallelGo tasks order acc = Except.error e := by
  induction order generalizing acc with
  | nil => cases hmem
  | cons h rest ih =>
    by_cases hh : h = i0
    · subst hh
      rw [runParallelGo_cons, hi]
    · have hrest : i0 ∈ rest := by
        rcases List.mem_cons.1 hmem with h1 | h1
        · exact absurd h1.symm hh
        · exact h1
      rw [runParallelGo_cons]
      cases ht : tasks[h]? with
      | none => exact ih _ hrest
      | some t =>
        cases t with
        | error e' => exact absurd ht (hothers h hh e')
        | ok a => exact ih _ hrest

/-! ## C7 — getall preserves input order, fails on any fetch error -/

/-- C7: `getall(ids, cb)` fetches all ids concurrently; for every
completion order (a permutation of the task indices), when every fetch
succeeds the callback receives the records in exactly the input id
order; when exactly one id's fetch errors, the whole call fails with
that error. -/
theorem getall_preserves_input_order (s : Store) (errOf : String → Option String)
    (c : CollRef) (ids : List String) (order : List Nat)
    (hperm : order.Perm (List.range ids.length)) :
    ((∀ id ∈ ids, errOf id = none) →
        getallRun s errOf c ids order = Except.ok (ids.map (fun id => getOkVal s c id)))
    ∧ (∀ (i0 : Nat) (idv e : String), ids[i0]? = some idv → errOf idv = some e →
        (∀ (j : Nat) (jv : String), j ≠ i0 → ids[j]? = some jv → errOf jv = none) →
        getallRun s errOf c ids order = Except.error e) := by
  constructor
  · intro herr
    have htasks : ids.map (fun id => collGet s errOf c id) =
        (ids.map (fun id => getOkVal s c id)).map Except.ok := by
      rw [List.map_map]
      exact List.map_congr_left (fun id hid => collGet_ok s errOf c id (herr id hid))
    unfold getallRun runParallel
    rw [htasks]
    apply runParallelGo_all_ok
    intro j hj hjo
    rw [List.length_map] at hj
    exact absurd (hperm.mem_iff.2 (List.mem_range.2 hj)) hjo
  · intro i0 idv e hidv he hothers
    have h1 : (ids.map (fun id => collGet s errOf c id))[i0]? =
        some (Except.error e) := by
      rw [List.getElem?_map, hidv]
      simp [collGet_err s errOf c idv e he]
    have h2 : ∀ j, j ≠ i0 → ∀ e',
        (ids.map (fun id => collGet s errOf c id))[j]? ≠ some (Except.error e') := by
      intro j hj e'
      rw [List.getElem?_map]
      cases hjv : ids[j]? with
      | none => simp
      | some jv =>
        simp only [Option.map_some']
        rw [collGet_ok s errOf c jv (hothers j jv hj hjv)]
        simp
    have hi0 : i0 < ids.length := by
      by_contra hge
      rw [List.getElem?_eq_none (Nat.le_of_not_lt hge)] at hidv
      cases hidv
    exact runParallelGo_unique_error _ i0 e h1 h2 order _
      (hperm.mem_iff.2 (List.mem_range.2 hi0))

/-- Witness for C7: two ids fetched with the reversed completion order
`[1, 0]`; results still come back in input order; a store failure on the
second id fails the whole call with that error. -/
theorem getall_preserves_input_order_witness :
    getallRun oneRecStore (fun _ => none) collEx ["x", "y"] [1, 0] =
      Except.ok [some ("x", [("n", "1")]), none]
    ∧ getallRun oneRecStore (fun id => if id = "y" then some "E" else none) collEx
        ["x", "y"] [1, 0] = Except.error "E" := by
  constructor
  · have h := (getall_preserves_input_order oneRecStore (fun _ => none) collEx
        ["x", "y"] [1, 0] (by decide)).1 (fun id _ => rfl)
    have hmap : (["x", "y"].map fun id => getOkVal oneRecStore collEx id) =
        [some ("x", [("n", "1")]), none] := by decide
    exact h.trans (by rw [hmap])
  · apply (getall_preserves_input_order oneRecStore
        (fun id => if id = "y" then some "E" else none) collEx
        ["x", "y"] [1, 0] (by decide)).2 1 "y" "E" (by decide) (by decide)
    intro j jv hj hjv
    match j, hjv with
    | 0, hjv =>
      have : jv = "x" := by simpa using hjv.symm
      subst this
      decide
    | 1, _ => exact absurd rfl hj
    | n + 2, hjv => simp at hjv

/-! ## destroyAll lemmas -/

theorem daGo_cons (tasks : List (Except String Unit)) (i : Nat) (rest : List Nat)
    (completed : Nat) (errored : Bool) :
    daGo tasks (i :: rest) completed errored =
      match tasks[i]? with
      | none => daGo tasks rest completed errored
      | some (Except.error e) =>
        DAEvent.settled i ::
          (if errored then daGo tasks rest completed true
           else DAEvent.doneErr e :: daGo tasks rest completed true)
      | some (Except.ok _) =>
        DAEvent.settled i ::
          ((if completed + 1 = tasks.length ∧ errored = false then [DAEvent.doneOk] else []) ++
            daGo tasks rest (completed + 1) errored) := rfl

/-- After the error has fired, the remaining completions only settle:
`done` is never invoked again. -/
theorem daGo_errored_settles (tasks : List (Except String Unit)) (order : List Nat)
    (c : Nat) (hvalid : ∀ i ∈ order, i < tasks.length) :
    daGo tasks order c true = order.map DAEvent.settled := by
  induction order generalizing c with
  | nil => rfl
  | cons i rest ih =>
    have hi : i < tasks.length := hvalid i (List.mem_cons_self i rest)
    rw [daGo_cons, List.getElem?_eq_getElem hi]
    have hrest : ∀ j ∈ rest, j < tasks.length :=
      fun j hj => hvalid j (List.mem_cons_of_mem i hj)
    cases htv : tasks[i] with
    | error e => simp [ih _ hrest]
    | ok u => simp [ih _ hrest]

/-- With no failing task, `done` fires with success exactly at the last
completion. -/
theorem daGo_all_ok (tasks : List (Except String Unit)) (order : List Nat) (c : Nat)
    (hne : order ≠ [])
    (hok : ∀ i ∈ order, ∃ h : i < tasks.length, tasks[i] = Except.ok ())
    (hcount : c + order.length = tasks.length) :
    daGo tasks order c false = order.map DAEvent.settled ++ [DAEvent.doneOk] := by
  induction order generalizing c with
  | nil => exact absurd rfl hne
  | cons i rest ih =>
    obtain ⟨hi, hti⟩ := hok i (List.mem_cons_self i rest)
    rw [daGo_cons, List.getElem?_eq_getElem hi, hti]
    cases rest with
    | nil =>
      have hc1 : c + 1 = tasks.length := by simpa using hcount
      simp [hc1, daGo]
    | cons i2 rest2 =>
      have hc1 : ¬(c + 1 = tasks.length) := by
        simp only [List.length_cons] at hcount
        omega
      have hrest : ∀ j ∈ i2 :: rest2, ∃ h : j < tasks.length, tasks[j] = Except.ok () :=
        fun j hj => hok j (List.mem_cons_of_mem i hj)
      have hcount2 : c + 1 + (i2 :: rest2).length = tasks.length := by
        simp only [List.length_cons] at hcount ⊢
        omega
      simp only [hc1, false_and, and_false, if_false, List.nil_append, ite_false,
        List.map_cons, List.cons_append]
      rw [ih _ (List.cons_ne_nil i2 rest2) hrest hcount2]
      simp

/-- A run of successful completions settles one by one without invoking
`done`, as long as the task count is not yet reached. -/
theorem daGo_ok_run (tasks : List (Except String Unit)) (p rest : List Nat) (c : Nat)
    (hok : ∀ j ∈ p, ∃ h : j < tasks.length, tasks[j] = Except.ok ())
    (hcount : c + p.length < tasks.length) :
    daGo tasks (p ++ rest) c false =
      p.map DAEvent.settled ++ daGo tasks rest (c + p.length) false := by
  induction p generalizing c with
  | nil => simp
  | cons j p' ih =>
    obtain ⟨hj, htj⟩ := hok j (List.mem_cons_self j p')
    rw [List.cons_append, daGo_cons, List.getElem?_eq_getElem hj, htj]
    have hne : ¬(c + 1 = tasks.length) := by
      simp only [List.length_cons] at hcount
      omega
    have hok' : ∀ j2 ∈ p', ∃ h : j2 < tasks.length, tasks[j2] = Except.ok () :=
      fun j2 hj2 => hok j2 (List.mem_cons_of_mem j hj2)
    have hcount' : c + 1 + p'.length < tasks.length := by
      simp only [List.length_cons] at hcount
      omega
    simp only [hne, false_and, and_false, if_false, List.nil_append, ite_false,
      List.map_cons, List.cons_append]
    rw [ih _ hok' hcount']
    have harith : c + 1 + p'.length = c + (p'.length + 1) := by omega
    simp [harith]

/-! ## C8 — counterexample: the completion callback fires before all
destroys settle -/

/-- C8 counterexample: two destroyable entities whose destroys complete
in argument order, the first with an error.  The completion callback is
invoked (with the error) before the second destroy settles — against the
claim that it is invoked after all destroys have settled.  (The claim's
trailing-callback signature is likewise contradicted by the source:
`destroy-all.js` binds `done` to its FIRST parameter.) -/
theorem destroy_all_done_before_settle :
    destroyAllTrace daArgsEx [0, 1] =
      [DAEvent.settled 0, DAEvent.doneErr "E", DAEvent.settled 1]
    ∧ settleAfterDone (destroyAllTrace daArgsEx [0, 1]) = true := by
  decide

/-! ## C8 — amended bulk-teardown contract -/

/-- C8 amended: `destroyAll` takes the completion callback as its first
argument, destroys every entity that has a destroy capability
concurrently, and silently skips entities lacking one (prepending a
non-destroyable entity leaves the trace unchanged).  The completion
callback is invoked exactly once: with success after all destroys settle
when none fails, or with the first error in completion order immediately
when that destroy settles — possibly before the remaining destroys have
settled. -/
theorem destroy_all_contract (args : List DAArg) :
    (∀ order : List Nat, order.Perm (List.range (extractTasks args).length) →
        (∀ i (h : i < (extractTasks args).length), (extractTasks args)[i] = Except.ok ()) →
        destroyAllTrace args order = order.map DAEvent.settled ++ [DAEvent.doneOk])
    ∧ (∀ (p s' : List Nat) (i : Nat) (e : String),
        (p ++ i :: s').Perm (List.range (extractTasks args).length) →
        (∀ j ∈ p, ∃ h : j < (extractTasks args).length, (extractTasks args)[j] = Except.ok ()) →
        (∃ h : i < (extractTasks args).length, (extractTasks args)[i] = Except.error e) →
        destroyAllTrace args (p ++ i :: s') =
          p.map DAEvent.settled ++
            DAEvent.settled i :: DAEvent.doneErr e :: s'.map DAEvent.settled)
    ∧ (∀ order : List Nat,
        destroyAllTrace (DAArg.one Entity.plain :: args) order = destroyAllTrace args order) := by
  refine ⟨?_, ?_, fun order => rfl⟩
  · intro order hperm hok
    unfold destroyAllTrace
    by_cases h0 : (extractTasks args).length = 0
    · have : order = [] := by
        have := hperm.length_eq
        rw [List.length_range, h0] at this
        exact List.eq_nil_of_length_eq_zero this
      simp [h0, this]
    · rw [if_neg h0]
      apply daGo_all_ok
      · intro hnil
        apply h0
        have := hperm.length_eq
        rw [hnil] at this
        simp only [List.length_nil, List.length_range] at this
        omega
      · intro i hi
        have : i < (extractTasks args).length := by
          have := hperm.mem_iff.1 hi
          simpa using List.mem_range.1 this
        exact ⟨this, hok i this⟩
      · have hleq := hperm.length_eq
        rw [List.length_range] at hleq
        omega
  · intro p s' i e hperm hokp hie
    obtain ⟨hi, hti⟩ := hie
    unfold destroyAllTrace
    have h0 : ¬((extractTasks args).length = 0) := by omega
    rw [if_neg h0]
    have hlen : p.length + (1 + s'.length) = (extractTasks args).length := by
      have := hperm.length_eq
      simpa [Nat.add_comm, Nat.add_assoc, Nat.add_left_comm] using this
    have hcount : 0 + p.length < (extractTasks args).length := by omega
    rw [daGo_ok_run _ _ _ _ hokp hcount, daGo_cons, List.getElem?_eq_getElem hi, hti]
    have hvalid : ∀ j ∈ s', j < (extractTasks args).length := by
      intro j hj
      have : j ∈ p ++ i :: s' := by simp [hj]
      have := hperm.mem_iff.1 this
      simpa using List.mem_range.1 this
    simp [daGo_errored_settles _ _ _ hvalid]

/-- Witness for C8 amended: a clean run settles then succeeds; a run
whose second-completing destroy fails settles both and reports that
error last (here the error task completes last). -/
theorem destroy_all_contract_witness :
    destroyAllTrace [DAArg.one (Entity.destroyable (Except.ok ())), DAArg.one Entity.plain] [0] =
      [DAEvent.settled 0, DAEvent.doneOk]
    ∧ destroyAllTrace daArgsEx [1, 0] =
      [DAEvent.settled 1, DAEvent.settled 0, DAEvent.doneErr "E"] := by
  constructor
  · have h := (destroy_all_contract
        [DAArg.one (Entity.destroyable (Except.ok ())), DAArg.one Entity.plain]).1
        [0] (by decide)
        (by
          intro i h
          have h1 : i < 1 := h
          interval_cases i
          rfl)
    simpa using h
  · have h := (destroy_all_contract daArgsEx).2.1 [1] [] 0 "E" (by decide)
        (by intro j hj; rw [List.mem_singleton] at hj; subst hj; exact ⟨by decide, rfl⟩)
        ⟨by decide, rfl⟩
    simpa using h

/-! ## Codec lemmas -/

theorem string_mk_data (l : List Char) : (String.mk l).data = l := rfl

theorem parseNat_enc (n : Nat) (rest : List Char) :
    parseNat (encNat n ++ rest) = some (n, rest) := by
  induction n with
  | zero => rfl
  | succ m ih =>
    have hshape : encNat (m + 1) ++ rest = '1' :: (encNat m ++ rest) := by
      simp [encNat, List.replicate_succ]
    rw [hshape, parseNat]
    simp [ih]

theorem parseStr_enc (s : String) (rest : List Char) :
    parseStr (encStr s ++ rest) = some (s, rest) := by
  obtain ⟨sd⟩ := s
  show parseStr (encNat sd.length ++ sd ++ rest) = _
  rw [List.append_assoc]
  simp [parseStr, parseNat_enc, List.take_left, List.drop_left]

theorem parseInt_enc (i : Int) (rest : List Char) :
    parseInt (encInt i ++ rest) = some (i, rest) := by
  unfold encInt
  split
  · next hpos =>
    show parseInt ('+' :: (encNat i.toNat ++ rest)) = _
    rw [parseInt]
    simp [parseNat_enc, Int.toNat_of_nonneg hpos]
  · next hneg =>
    show parseInt ('-' :: (encNat (-i).toNat ++ rest)) = _
    rw [parseInt]
    simp only [parseNat_enc]
    have : ((-i).toNat : Int) = -i := Int.toNat_of_nonneg (by omega)
    simp [this]

mutual

theorem depthVal_le_encVal (v : JsVal) : depthVal v ≤ (encVal v).length := by
  cases v with
  | str s => simp [depthVal, encVal]
  | num i => simp [depthVal, encVal]
  | bool b => simp [depthVal, encVal]
  | date d => simp [depthVal, encVal]
  | pattern p => simp [depthVal, encVal]
  | obj ps =>
    have h := depthProps_le_encProps ps
    simp only [depthVal, encVal, List.length_cons]
    omega
  | arr l =>
    have h := depthList_le_encList l
    simp only [depthVal, encVal, List.length_cons]
    omega

theorem depthProps_le_encProps (ps : JsProps) : depthProps ps ≤ (encProps ps).length := by
  cases ps with
  | nil => simp [depthProps, encProps]
  | cons k v r =>
    have h1 := depthVal_le_encVal v
    have h2 := depthProps_le_encProps r
    simp only [depthProps, encProps, List.length_cons, List.length_append]
    omega

theorem depthList_le_encList (l : JsList) : depthList l ≤ (encList l).length := by
  cases l with
  | nil => simp [depthList, encList]
  | cons v r =>
    have h1 := depthVal_le_encVal v
    have h2 := depthList_le_encList r
    simp only [depthList, encList, List.length_cons, List.length_append]
    omega

end

mutual

theorem parseVal_enc (v : JsVal) (fuel : Nat) (rest : List Char)
    (h : depthVal v ≤ fuel) : parseVal fuel (encVal v ++ rest) = some (v, rest) := by
  cases v with
  | str s =>
    match fuel with
    | 0 => simp [depthVal] at h
    | f + 1 =>
      show parseVal (f + 1) ('s' :: (encStr s ++ rest)) = _
      rw [parseVal]
      simp [parseStr_enc]
  | num i =>
    match fuel with
    | 0 => simp [depthVal] at h
    | f + 1 =>
      show parseVal (f + 1) ('n' :: (encInt i ++ rest)) = _
      rw [parseVal]
      simp [parseInt_enc]
  | bool b =>
    match fuel with
    | 0 => simp [depthVal] at h
    | f + 1 =>
      cases b with
      | true =>
        show parseVal (f + 1) ('b' :: ('t' :: rest)) = _
        rw [parseVal]
        simp [parseBool]
      | false =>
        show parseVal (f + 1) ('b' :: ('f' :: rest)) = _
        rw [parseVal]
        simp [parseBool]
  | date d =>
    match fuel with
    | 0 => simp [depthVal] at h
    | f + 1 =>
      show parseVal (f + 1) ('d' :: (encInt d ++ rest)) = _
      rw [parseVal]
      simp [parseInt_enc]
  | pattern p =>
    match fuel with
    | 0 => simp [depthVal] at h
    | f + 1 =>
      show parseVal (f + 1) ('p' :: (encStr p ++ rest)) = _
      rw [parseVal]
      simp [parseStr_enc]
  | obj ps =>
    match fuel with
    | 0 => simp [depthVal] at h
    | f + 1 =>
      have hd : depthProps ps ≤ f := by
        simp only [depthVal] at h
        omega
      show parseVal (f + 1) ('o' :: (encProps ps ++ rest)) = _
      rw [parseVal]
      simp [parseProps_enc ps f rest hd]
  | arr l =>
    match fuel with
    | 0 => simp [depthVal] at h
    | f + 1 =>
      have hd : depthList l ≤ f := by
        simp only [depthVal] at h
        omega
      show parseVal (f + 1) ('a' :: (encList l ++ rest)) = _
      rw [parseVal]
      simp [parseList_enc l f rest hd]

theorem parseProps_enc (ps : JsProps) (fuel : Nat) (rest : List Char)
    (h : depthProps ps ≤ fuel) : parseProps fuel (encProps ps ++ rest) = some (ps, rest) := by
  cases ps with
  | nil =>
    match fuel with
    | 0 => simp [depthProps] at h
    | f + 1 =>
      show parseProps (f + 1) (';' :: rest) = _
      rw [parseProps]
      simp
  | cons k v r =>
    match fuel with
    | 0 => simp [depthProps] at h
    | f + 1 =>
      have hdv : depthVal v ≤ f := by
        simp only [depthProps, Nat.max_le] at h
        omega
      have hdr : depthProps r ≤ f := by
        simp only [depthProps, Nat.max_le] at h
        omega
      have hshape : encProps (JsProps.cons k v r) ++ rest =
          ',' :: (encStr k ++ (encVal v ++ (encProps r ++ rest))) := by
        simp [encProps, List.append_assoc]
      rw [hshape, parseProps]
      simp [parseStr_enc, parseVal_enc v f _ hdv, parseProps_enc r f rest hdr]

theorem parseList_enc (l : JsList) (fuel : Nat) (rest : List Char)
    (h : depthList l ≤ fuel) : parseList fuel (encList l ++ rest) = some (l, rest) := by
  cases l with
  | nil =>
    match fuel with
    | 0 => simp [depthList] at h
    | f + 1 =>
      show parseList (f + 1) (';' :: rest) = _
      rw [parseList]
      simp
  | cons v r =>
    match fuel with
    | 0 => simp [depthList] at h
    | f + 1 =>
      have hdv : depthVal v ≤ f := by
        simp only [depthList, Nat.max_le] at h
        omega
      have hdr : depthList r ≤ f := by
        simp only [depthList, Nat.max_le] at h
        omega
      have hshape : encList (JsList.cons v r) ++ rest =
          ',' :: (encVal v ++ (encList r ++ rest)) := by
        simp [encList, List.append_assoc]
      rw [hshape, parseList]
      simp [parseVal_enc v f _ hdv, parseList_enc r f rest hdr]

end

/-- One stored field hydrates back to the value it was dehydrated from. -/
theorem fieldOfText_fieldText (v : JsVal) :
    fieldOfText (kindOf v) (fieldText v) = some v := by
  cases v with
  | str s => rfl
  | num i =>
    show fieldOfText JsKind.num (String.mk (encInt i)) = _
    unfold fieldOfText
    simp only [string_mk_data]
    have h := parseInt_enc i []
    rw [List.append_nil] at h
    rw [h]
  | bool b => cases b <;> rfl
  | date d =>
    show fieldOfText JsKind.date (String.mk (encInt d)) = _
    unfold fieldOfText
    simp only [string_mk_data]
    have h := parseInt_enc d []
    rw [List.append_nil] at h
    rw [h]
  | pattern p => rfl
  | obj ps =>
    show fieldOfText JsKind.obj (String.mk (encVal (JsVal.obj ps))) = _
    unfold fieldOfText
    simp only [string_mk_data]
    have hd : depthVal (JsVal.obj ps) ≤ (encVal (JsVal.obj ps)).length + 1 :=
      le_trans (depthVal_le_encVal _) (Nat.le_succ _)
    have h := parseVal_enc (JsVal.obj ps) ((encVal (JsVal.obj ps)).length + 1) [] hd
    rw [List.append_nil] at h
    rw [h]
  | arr l =>
    show fieldOfText JsKind.arr (String.mk (encVal (JsVal.arr l))) = _
    unfold fieldOfText
    simp only [string_mk_data]
    have hd : depthVal (JsVal.arr l) ≤ (encVal (JsVal.arr l)).length + 1 :=
      le_trans (depthVal_le_encVal _) (Nat.le_succ _)
    have h := parseVal_enc (JsVal.arr l) ((encVal (JsVal.arr l)).length + 1) [] hd
    rw [List.append_nil] at h
    rw [h]

/-! ## C4 — type-codec round trip -/

/-- C4: for every property bag over the supported kinds (strings,
numbers, booleans, dates, nested objects/arrays, pattern values),
hydrating the dehydrated form — the string-encoded data together with
its recorded types map — yields the original bag. -/
theorem hydrate_dehydrate_round_trip : ∀ ps : JsProps,
    hydrateProps (dehydrateProps ps).1 (dehydrateProps ps).2 = some ps
  | JsProps.nil => rfl
  | JsProps.cons k v r => by
    have ih := hydrate_dehydrate_round_trip r
    show hydrateProps ((k, fieldText v) :: (dehydrateProps r).1)
        ((k, kindOf v) :: (dehydrateProps r).2) = _
    rw [hydrateProps, if_pos rfl, fieldOfText_fieldText, ih]

end CantinaRedis
